import Mathlib

/-!
# Verification of the Code-Card generator pipeline

Shallow embedding of `FileSystemToText-CardsUtility.py` (a.k.a. `generate_cards.py`):
a utility that walks a directory tree, sends each selected file's text to a
completion client, and persists the returned "card" per file plus an aggregate
document.  Paths are modelled as lists of segments (pathlib `parts`), the
filesystem written by the run as an ordered list of (filename, content) writes
(a later write to the same name overwrites an earlier one), and the completion
client plus the possibility of a failing card write as an explicit environment.
-/

namespace Cards

/-- Index of the last occurrence of character `c` in a list of characters,
`none` when absent.  Models Python `str.rfind` (restricted to the found/absent
distinction plus the index). -/
def rfindIdx (c : Char) : List Char → Option Nat
  | [] => none
  | a :: t =>
    match rfindIdx c t with
    | some j => some (j + 1)
    | none => if a = c then some 0 else none

/-- `pathlib.PurePath.suffix` of a final path component `name`:
the substring from the last dot onward, provided that dot is neither the
first nor the last character; otherwise the empty string.  This is the
filter used by `file_path.suffix in exts` (line 78 of the source). -/
def pysuffix (name : String) : String :=
  match rfindIdx '.' name.data with
  | some i => if 0 < i ∧ i < name.data.length - 1 then String.mk (name.data.drop i) else ""
  | none => ""

/-- The characters Python's `str.strip()` removes. -/
def pyspace (c : Char) : Bool :=
  c == ' ' || c == '\t' || c == '\n' || c == '\r' || c == '\x0b' || c == '\x0c'

/-- Python `str.strip()`: remove leading and trailing whitespace. -/
def pystrip (s : String) : String :=
  String.mk (((s.data.dropWhile pyspace).reverse.dropWhile pyspace).reverse)

/-- Normalisation of one comma-separated extension token (line 74 of the
source): `f".{e.strip().lstrip('.')}"` — strip surrounding whitespace, strip
all leading dots, prefix exactly one dot. -/
def norm_ext (e : String) : String :=
  "." ++ String.mk ((pystrip e).data.dropWhile (· == '.'))

/-- Python `str.split(",")`: cut at every comma; the empty string yields the
one-element list holding the empty string. -/
def splitComma : List Char → List (List Char)
  | [] => [[]]
  | c :: rest =>
    if c = ',' then [] :: splitComma rest
    else
      match splitComma rest with
      | h :: t => (c :: h) :: t
      | [] => [[c]]

/-- The allow-set built by `main` from the raw `--exts` value (line 74):
split on commas and normalise each token.  The Python set is modelled as a
list; only membership is ever consulted. -/
def parseExts (raw : String) : List String :=
  (splitComma raw.data).map (fun cs => norm_ext (String.mk cs))

/-- Join a list of strings with a separator, by the defining recurrence of
Python `sep.join`. -/
def joinWith (sep : String) : List String → String
  | [] => ""
  | [p] => p
  | p :: q :: rest => p ++ sep ++ joinWith sep (q :: rest)

/-- `"__".join(parts)` (line 60 of the source), by the defining recurrence of
string join. -/
def joinParts : List String → String
  | [] => ""
  | [p] => p
  | p :: q :: rest => p ++ "__" ++ joinParts (q :: rest)

/-- The derived card filename of `write_card` (line 60):
`"__".join(rel_path.parts) + ".md"`. -/
def safe_name (parts : List String) : String := joinParts parts ++ ".md"

/-- `str(rel_path)` for a relative path given by its segments (POSIX
separator). -/
def relStr (parts : List String) : String := joinWith "/" parts

/-- `str(file_path)` for the absolute path of a file with segments `parts`
under the resolved root (POSIX separator). -/
def absStr (root : String) (parts : List String) : String :=
  root ++ "/" ++ relStr parts

/-- The fixed prompt template `PROMPT` (lines 31-44), after `textwrap.dedent`,
up to (and including) the code fence that precedes the `file_path`
placeholder. -/
def PROMPT_head : String :=
  "You are CodeCardGPT, an elite software architect.\nCreate a concise “index card” for the following module, such that when applied systematically to the whole codebase, the aggregate compressed knowledge about the codebase can be accessible and planned from in a large re-archiecture requirement.\n\nRules\n• ONLY analyse the file pasted below\n• Do NOT invent functions that are not listed.\n• Write in bullet points, max 120 words total.\n• Field names exactly: file (relative filepath from root folder of project, purpose), classes, dependencies, exports, internals, emitsOrListeners,  smells, data flow\n\n```"

/-- The template text between the `file_path` and `file_text` placeholders. -/
def PROMPT_mid : String := "\n"

/-- The template text after the `file_text` placeholder (closing fence and
final newline). -/
def PROMPT_tail : String := "\n```\n"

/-- `PROMPT.format(file_path=..., file_text=...)` (line 57): the fixed
template with the two placeholders substituted. -/
def formatPROMPT (file_path file_text : String) : String :=
  PROMPT_head ++ file_path ++ PROMPT_mid ++ file_text ++ PROMPT_tail

/-- One filesystem entry yielded by `root.rglob("*")` (line 77): its path
segments relative to the root, whether it is a regular file, and (for regular
files) its permissively decoded text content. -/
structure Entry where
  relParts : List String
  isFile : Bool
  text : String
deriving DecidableEq, Repr

/-- The final path component (`file_path.name`), whose `pysuffix` is the
extension consulted by the filter. -/
def entryName (e : Entry) : String := (e.relParts.getLast?).getD ""

/-- The selection test of line 78: `file_path.is_file() and file_path.suffix
in exts`. -/
def selectedB (exts : List String) (e : Entry) : Bool :=
  e.isFile && exts.contains (pysuffix (entryName e))

/-- `prompt_for_file` (lines 55-57) applied to a path label and the already
decoded file text. -/
def prompt_for_file (path_str : String) (code : String) : String :=
  formatPROMPT path_str code

/-- The prompt actually sent for entry `e` in the main loop (line 82):
`prompt_for_file(file_path)` — note the ABSOLUTE path is substituted. -/
def promptFor (root : String) (e : Entry) : String :=
  prompt_for_file (absStr root e.relParts) e.text

/-- The external effects of one run: the completion client (prompt in, text
out, or an exception message), and whether `write_card`'s `write_text` raises
for a given derived filename (`none` = the write succeeds). -/
structure Env where
  complete : String → Except String String
  writeErr : String → Option String

/-- The section appended to `all_cards` for a successful file
(line 90): `f"## {rel}\n\n{card}\n"`. -/
def sectionFor (rel card : String) : String := "## " ++ rel ++ "\n\n" ++ card ++ "\n"

/-- The per-file `try` body (lines 81-90) for a selected entry: build the
prompt, call the client, strip the returned text, then attempt the card
write; any failure aborts the whole per-file sequence with the error
message.  Returns the stripped card on success. -/
def processEntry (env : Env) (root : String) (e : Entry) : Except String String :=
  match env.complete (promptFor root e) with
  | .error msg => .error msg
  | .ok raw =>
    match env.writeErr (safe_name e.relParts) with
    | some msg => .error msg
    | none => .ok (pystrip raw)

/-- Mutable run state: the ordered list of (filename, content) writes into
`card_dir`, the `all_cards` list of sections, and the stderr diagnostics
(relative path, error message) of line 92. -/
structure St where
  writes : List (String × String)
  cards : List String
  errs : List (String × String)
deriving DecidableEq, Repr

/-- One iteration of the main loop (lines 77-92): unselected entries are
skipped; a selected entry either writes its card and appends its section, or
logs a diagnostic keyed by its relative path. -/
def stepEntry (env : Env) (root : String) (exts : List String) (st : St) (e : Entry) : St :=
  if selectedB exts e then
    match processEntry env root e with
    | .ok card =>
      { writes := st.writes ++ [(safe_name e.relParts, card)]
        cards := st.cards ++ [sectionFor (relStr e.relParts) card]
        errs := st.errs }
    | .error msg => { st with errs := st.errs ++ [(relStr e.relParts, msg)] }
  else st

/-- The main loop over the traversal sequence. -/
def runLoop (env : Env) (root : String) (exts : List String) (tree : List Entry) : St :=
  tree.foldl (stepEntry env root exts) ⟨[], [], []⟩

/-- The aggregate document (lines 96-97): timestamp header followed by the
sections joined with horizontal rules. -/
def aggContent (now : String) (cards : List String) : String :=
  "# Code-Cards\nGenerated " ++ now ++ "\n\n" ++ joinWith "\n---\n" cards

/-- A whole run of `main` after credential resolution (lines 71-98): the loop
followed by the aggregate write to `ALL_CARDS.md`.  `now` is the formatted
wall-clock timestamp. -/
def runPipeline (env : Env) (root extsRaw : String) (tree : List Entry) (now : String) : St :=
  let st := runLoop env root (parseExts extsRaw) tree
  { st with writes := st.writes ++ [("ALL_CARDS.md", aggContent now st.cards)] }

/-- Final content of the file called `name` in `card_dir` after a run: the
last write to that name, if any. -/
def cardFileContent (st : St) (name : String) : Option String :=
  ((st.writes.filter (fun w => w.1 == name)).getLast?).map Prod.snd

/-- A node of the scanned directory tree: a regular file with its name and
decoded text, a directory with its children, or any other entry (a special
file, or a symlink resolving to a non-file). -/
inductive FsNode where
  | file : String → String → FsNode
  | dir : String → List FsNode → FsNode
  | other : String → FsNode
deriving Repr

/-- The sequence `root.rglob("*")` yields for a list of siblings, as entries
relative to the root (line 77): every entry at every depth, each directory
before its contents; only regular files carry text and have
`is_file()` true. -/
def walkList (pre : List String) : List FsNode → List Entry
  | [] => []
  | .file n t :: rest => ⟨pre ++ [n], true, t⟩ :: walkList pre rest
  | .dir n cs :: rest =>
      ⟨pre ++ [n], false, ""⟩ :: (walkList (pre ++ [n]) cs ++ walkList pre rest)
  | .other n :: rest => ⟨pre ++ [n], false, ""⟩ :: walkList pre rest

/-- The regular files among a list of siblings, at any depth, whose final
suffix belongs to the allow-set: the reference set that claim C3 compares the
traversal filter against. -/
def filesList (exts : List String) (pre : List String) : List FsNode → List Entry
  | [] => []
  | .file n t :: rest =>
      if exts.contains (pysuffix n) then ⟨pre ++ [n], true, t⟩ :: filesList exts pre rest
      else filesList exts pre rest
  | .dir n cs :: rest => filesList exts (pre ++ [n]) cs ++ filesList exts pre rest
  | .other _ :: rest => filesList exts pre rest

/-- Is a byte a UTF-8 continuation byte (`0x80..0xBF`)? -/
def contOk (c : Nat) : Bool := 0x80 ≤ c && c ≤ 0xBF

/-- Decode the 2-byte sequence `b c`. -/
def cp2 (b c : Nat) : Nat := (b - 0xC0) * 64 + (c - 0x80)

/-- Decode the 3-byte sequence `b c1 c2`. -/
def cp3 (b c1 c2 : Nat) : Nat := (b - 0xE0) * 4096 + (c1 - 0x80) * 64 + (c2 - 0x80)

/-- Decode the 4-byte sequence `b c1 c2 c3`. -/
def cp4 (b c1 c2 c3 : Nat) : Nat :=
  (b - 0xF0) * 262144 + (c1 - 0x80) * 4096 + (c2 - 0x80) * 64 + (c3 - 0x80)

/-- Is `c` an admissible second byte after start byte `b`?  Encodes CPython's
UTF-8 ranges, which exclude overlong forms, surrogates and values above
`U+10FFFF`. -/
def snd_ok (b c : Nat) : Bool :=
  if b = 0xE0 then 0xA0 ≤ c && c ≤ 0xBF
  else if b = 0xED then 0x80 ≤ c && c ≤ 0x9F
  else if b = 0xF0 then 0x90 ≤ c && c ≤ 0xBF
  else if b = 0xF4 then 0x80 ≤ c && c ≤ 0x8F
  else contOk c

/-- CPython's incremental UTF-8 decoder over a byte sequence: one `some` code
point per valid sequence, one `none` per maximal invalid subpart (an
ill-formed start byte, or a start byte plus its longest run of admissible
continuation bytes cut short by the end of input or a byte out of range).
Recursion is paced by a fuel counter that decreases by one per decoded unit
while the input shrinks by at least one byte, so fuel equal to the input
length (as supplied by `decodeRes`) never runs out. -/
def decodeResAux : Nat → List Nat → List (Option Nat)
  | _, [] => []
  | 0, _ :: _ => []
  | fuel + 1, b :: rest =>
    if b ≤ 0x7F then some b :: decodeResAux fuel rest
    else if 0xC2 ≤ b && b ≤ 0xDF then
      match rest with
      | c :: rest1 =>
        if contOk c then some (cp2 b c) :: decodeResAux fuel rest1
        else none :: decodeResAux fuel (c :: rest1)
      | [] => [none]
    else if 0xE0 ≤ b && b ≤ 0xEF then
      match rest with
      | c1 :: rest1 =>
        if snd_ok b c1 then
          match rest1 with
          | c2 :: rest2 =>
            if contOk c2 then some (cp3 b c1 c2) :: decodeResAux fuel rest2
            else none :: decodeResAux fuel rest1
          | [] => [none]
        else none :: decodeResAux fuel (c1 :: rest1)
      | [] => [none]
    else if 0xF0 ≤ b && b ≤ 0xF4 then
      match rest with
      | c1 :: rest1 =>
        if snd_ok b c1 then
          match rest1 with
          | c2 :: rest2 =>
            if contOk c2 then
              match rest2 with
              | c3 :: rest3 =>
                if contOk c3 then some (cp4 b c1 c2 c3) :: decodeResAux fuel rest3
                else none :: decodeResAux fuel rest2
              | [] => [none]
            else none :: decodeResAux fuel rest1
          | [] => [none]
        else none :: decodeResAux fuel (c1 :: rest1)
      | [] => [none]
    else none :: decodeResAux fuel rest

/-- Run the decoder over an entire byte sequence. -/
def decodeRes (bs : List Nat) : List (Option Nat) := decodeResAux bs.length bs

/-- The two error policies of `bytes.decode` relevant here. -/
inductive DecodeMode where
  | strict
  | ignore
deriving DecidableEq, Repr

/-- `bytes.decode("utf-8", errors=...)` as modelled: `strict` raises (returns
`Except.error`) on any invalid data, `ignore` — the mode used by
`path.read_text(encoding="utf-8", errors="ignore")` on line 56 — silently
drops every invalid subpart and never raises. -/
def pyDecode (mode : DecodeMode) (bs : List Nat) : Except Unit (List Nat) :=
  match mode with
  | .strict =>
    if (decodeRes bs).all Option.isSome then .ok ((decodeRes bs).filterMap id)
    else .error ()
  | .ignore => .ok ((decodeRes bs).filterMap id)

/-- The behaviour claim C5 attributes to the reader: undecodable subparts are
REPLACED by `U+FFFD` in the resulting text (Python's `errors="replace"`). -/
def pyDecodeReplace (bs : List Nat) : List Nat :=
  (decodeRes bs).map (fun o => o.getD 0xFFFD)

/-- Python truthiness of an optional string (`None` and `""` are falsy). -/
def pyTruthy : Option String → Bool
  | none => false
  | some s => s != ""

/-- `ensure_api_key` (lines 47-53): argument `or` environment variable, else
the stripped interactive input; `none` models the `sys.exit` with a non-zero
status when the resulting key is still empty. -/
def ensure_api_key (arg envvar : Option String) (prompted : String) : Option String :=
  let key0 : Option String := if pyTruthy arg then arg else envvar
  let key1 : String := if pyTruthy key0 then key0.getD "" else pystrip prompted
  if key1 = "" then none else some key1

/-- `main` (lines 66-98): resolve the credential (aborting with a non-zero
exit, modelled as `none`, when none is obtainable), then run the pipeline to
completion. -/
def main_model (arg envvar : Option String) (prompted : String)
    (env : Env) (root extsRaw : String) (tree : List Entry) (now : String) : Option St :=
  match ensure_api_key arg envvar prompted with
  | none => none
  | some _ => some (runPipeline env root extsRaw tree now)

/-- The successfully processed files of a run, with their cards, in traversal
order. -/
def successes (env : Env) (root : String) (exts : List String) (tree : List Entry) :
    List (Entry × String) :=
  (tree.filter (selectedB exts)).filterMap
    (fun e => match processEntry env root e with
              | .ok c => some (e, c)
              | .error _ => none)

/-- The per-file failures of a run, as (relative path, message) diagnostics,
in traversal order. -/
def failures (env : Env) (root : String) (exts : List String) (tree : List Entry) :
    List (String × String) :=
  (tree.filter (selectedB exts)).filterMap
    (fun e => match processEntry env root e with
              | .ok _ => none
              | .error m => some (relStr e.relParts, m))

/-- Did the per-file processing succeed? -/
def isOkB : Except String String → Bool
  | .ok _ => true
  | .error _ => false

/-- Does a character list avoid two adjacent underscores (i.e. avoid the
separator token `__` as a substring)? -/
def noDouble : List Char → Bool
  | a :: b :: t => !(a == '_' && b == '_') && noDouble (b :: t)
  | _ => true

/-- Character-level counterpart of `joinParts` (join with `__`). -/
def charJoin : List (List Char) → List Char
  | [] => []
  | [s] => s
  | s :: t :: rest => s ++ '_' :: '_' :: charJoin (t :: rest)

/-- A path segment under which the derived-name scheme is injective: free of
the `__` separator token and neither starting nor ending with `_`. -/
def segSafe (s : String) : Bool :=
  noDouble s.data && s.data.head? != some '_' && s.data.getLast? != some '_'

/-- The segment conditions at character-list level. -/
def goodSeg (s : List Char) : Prop :=
  s ≠ [] ∧ noDouble s = true ∧ s.head? ≠ some '_' ∧ s.getLast? ≠ some '_'

/-- The success record of one entry, if its processing succeeded. -/
def succOf (env : Env) (root : String) (e : Entry) : Option (Entry × String) :=
  match processEntry env root e with
  | .ok c => some (e, c)
  | .error _ => none

theorem rfindIdx_lt {c : Char} :
    ∀ {l : List Char} {i : Nat}, rfindIdx c l = some i → i < l.length := by
  intro l
  induction l with
  | nil => intro i h; simp [rfindIdx] at h
  | cons a t ih =>
    intro i h
    simp only [rfindIdx] at h
    cases hr : rfindIdx c t with
    | some j =>
      rw [hr] at h
      cases h
      have := ih hr
      simp only [List.length_cons]
      omega
    | none =>
      rw [hr] at h
      by_cases ha : a = c
      · simp [ha] at h
        cases h
        simp
      · simp [ha] at h

theorem rfindIdx_get {c : Char} :
    ∀ {l : List Char} {i : Nat}, rfindIdx c l = some i → l[i]? = some c := by
  intro l
  induction l with
  | nil => intro i h; simp [rfindIdx] at h
  | cons a t ih =>
    intro i h
    simp only [rfindIdx] at h
    cases hr : rfindIdx c t with
    | some j =>
      rw [hr] at h
      cases h
      simpa using ih hr
    | none =>
      rw [hr] at h
      by_cases ha : a = c
      · simp [ha] at h
        cases h
        simp [ha]
      · simp [ha] at h

theorem rfindIdx_eq_none {c : Char} :
    ∀ {l : List Char}, c ∉ l → rfindIdx c l = none := by
  intro l
  induction l with
  | nil => intro _; rfl
  | cons a t ih =>
    intro h
    simp only [List.mem_cons, not_or] at h
    simp only [rfindIdx, ih h.2]
    have hne : a ≠ c := fun he => h.1 he.symm
    simp [hne]

/-- Structure of a pathlib suffix: empty, or a dot followed by at least one
character. -/
theorem pysuffix_shape (name : String) :
    pysuffix name = "" ∨
      ((pysuffix name).data.head? = some '.' ∧ 2 ≤ (pysuffix name).data.length) := by
  cases h : rfindIdx '.' name.data with
  | none => left; simp only [pysuffix, h]
  | some i =>
    by_cases hc : 0 < i ∧ i < name.data.length - 1
    · refine Or.inr ?_
      simp only [pysuffix, h, if_pos hc]
      refine ⟨?_, ?_⟩
      · rw [List.head?_drop]
        exact rfindIdx_get h
      · rw [List.length_drop]
        omega
    · left
      simp only [pysuffix, h, if_neg hc]

/-- No name has the bare dot as its suffix. -/
theorem pysuffix_ne_dot (name : String) : pysuffix name ≠ "." := by
  rcases pysuffix_shape name with h | h
  · rw [h]; decide
  · intro he
    rw [he] at h
    exact absurd h (by decide)

/-- A name without any dot has the empty suffix. -/
theorem pysuffix_of_no_dot {name : String} (h : '.' ∉ name.data) : pysuffix name = "" := by
  unfold pysuffix
  rw [rfindIdx_eq_none h]

/-- Every normalised extension starts with a dot. -/
theorem norm_ext_head (e : String) : (norm_ext e).data.head? = some '.' := by
  unfold norm_ext
  rw [String.data_append]
  rfl

theorem parseExts_head {raw : String} {x : String} (hx : x ∈ parseExts raw) :
    x.data.head? = some '.' := by
  rcases List.mem_map.mp hx with ⟨e, _, rfl⟩
  exact norm_ext_head _

/-- Closed form of the main loop: a run's writes and sections are exactly the
successes, in traversal order, and its diagnostics are exactly the failures. -/
theorem foldl_step_eq (env : Env) (root : String) (exts : List String) :
    ∀ (tree : List Entry) (st : St),
      tree.foldl (stepEntry env root exts) st =
        { writes := st.writes ++ (successes env root exts tree).map
            (fun p => (safe_name p.1.relParts, p.2))
          cards := st.cards ++ (successes env root exts tree).map
            (fun p => sectionFor (relStr p.1.relParts) p.2)
          errs := st.errs ++ failures env root exts tree } := by
  intro tree
  induction tree with
  | nil => intro st; simp [successes, failures]
  | cons e rest ih =>
    intro st
    simp only [List.foldl_cons]
    cases hs : selectedB exts e with
    | false =>
      rw [show stepEntry env root exts st e = st by simp [stepEntry, hs]]
      rw [ih st]
      simp [successes, failures, hs]
    | true =>
      cases hp : processEntry env root e with
      | ok c =>
        rw [show stepEntry env root exts st e =
          { writes := st.writes ++ [(safe_name e.relParts, c)]
            cards := st.cards ++ [sectionFor (relStr e.relParts) c]
            errs := st.errs } by simp [stepEntry, hs, hp]]
        rw [ih]
        simp [successes, failures, hs, hp]
      | error m =>
        rw [show stepEntry env root exts st e =
          { st with errs := st.errs ++ [(relStr e.relParts, m)] } by simp [stepEntry, hs, hp]]
        rw [ih]
        simp [successes, failures, hs, hp]

/-- `runLoop` in closed form. -/
theorem runLoop_eq (env : Env) (root : String) (exts : List String) (tree : List Entry) :
    runLoop env root exts tree =
      { writes := (successes env root exts tree).map
          (fun p => (safe_name p.1.relParts, p.2))
        cards := (successes env root exts tree).map
          (fun p => sectionFor (relStr p.1.relParts) p.2)
        errs := failures env root exts tree } := by
  unfold runLoop
  rw [foldl_step_eq]
  simp

/-- With the allow-set of an empty `--exts` value, nothing is selected. -/
theorem selectedB_empty_exts (e : Entry) : selectedB (parseExts "") e = false := by
  have hp : parseExts "" = ["."] := by decide
  rw [hp]
  unfold selectedB
  cases hf : e.isFile
  · rfl
  · simp only [Bool.true_and]
    rw [Bool.eq_false_iff]
    intro hc
    have hmem : pysuffix (entryName e) ∈ ["."] := by simpa using hc
    have : pysuffix (entryName e) = "." := by simpa using hmem
    exact pysuffix_ne_dot _ this

/-- C10: extension tokens are normalised by trimming whitespace, stripping
all leading dots and prefixing one dot, so `py`, `.py` and ` ..py ` select
the same files; the empty token normalises to the bare `"."`, which is never
a file's suffix (a suffix is empty or a dot plus at least one character), so
an empty `--exts` value selects zero files. -/
theorem C10_ext_normalization :
    (norm_ext "py" = ".py" ∧ norm_ext ".py" = ".py" ∧ norm_ext " ..py " = ".py") ∧
    (parseExts "py" = parseExts ".py" ∧ parseExts ".py" = parseExts " ..py ") ∧
    norm_ext "" = "." ∧
    (∀ name : String, pysuffix name = "" ∨
      ((pysuffix name).data.head? = some '.' ∧ 2 ≤ (pysuffix name).data.length)) ∧
    (∀ name : String, pysuffix name ≠ ".") ∧
    (∀ tree : List Entry, tree.filter (selectedB (parseExts "")) = []) := by
  refine ⟨by decide, by decide, by decide, pysuffix_shape, pysuffix_ne_dot, ?_⟩
  intro tree
  rw [List.filter_eq_nil_iff]
  intro e _
  rw [selectedB_empty_exts e]
  simp

/-- The credential resolver fails exactly when the argument is missing or
empty, the environment variable is missing or empty, and the stripped
interactive input is empty. -/
theorem ensure_api_key_none_iff (arg envvar : Option String) (prompted : String) :
    ensure_api_key arg envvar prompted = none ↔
      (pyTruthy arg = false ∧ pyTruthy envvar = false ∧ pystrip prompted = "") := by
  unfold ensure_api_key
  cases arg with
  | some a =>
    by_cases ha : a = ""
    · subst ha
      simp only [pyTruthy, bne_self_eq_false, if_neg Bool.false_ne_true]
      cases envvar with
      | some b =>
        by_cases hb : b = ""
        · subst hb
          simp [pyTruthy]
        · simp [pyTruthy, hb]
      | none =>
        simp [pyTruthy]
    · simp [pyTruthy, ha]
  | none =>
    cases envvar with
    | some b =>
      by_cases hb : b = ""
      · subst hb
        simp [pyTruthy]
      · simp [pyTruthy, hb]
    | none =>
      simp [pyTruthy]

/-- C7: the process exits with a non-zero status exactly when no credential
can be obtained from the argument, the environment variable or the
interactive prompt; when it runs, every per-file failure is logged as a
diagnostic keyed by the file's relative path, and no per-file failure can
change the exit status (the run always returns `some` state once a
credential exists, whatever the client and the tree do). -/
theorem C7_exit_status (arg envvar : Option String) (prompted : String) (env : Env)
    (root extsRaw : String) (tree : List Entry) (now : String) :
    (main_model arg envvar prompted env root extsRaw tree now = none ↔
      (pyTruthy arg = false ∧ pyTruthy envvar = false ∧ pystrip prompted = "")) ∧
    (∀ st, main_model arg envvar prompted env root extsRaw tree now = some st →
      st.errs = failures env root (parseExts extsRaw) tree) := by
  constructor
  · rw [← ensure_api_key_none_iff arg envvar prompted]
    unfold main_model
    cases ensure_api_key arg envvar prompted with
    | none => simp
    | some k => simp
  · intro st hst
    unfold main_model at hst
    cases hk : ensure_api_key arg envvar prompted with
    | none => rw [hk] at hst; cases hst
    | some k =>
      rw [hk] at hst
      cases hst
      unfold runPipeline
      rw [runLoop_eq]

theorem length_filterMap_countP {α β : Type} (f : α → Option β) :
    ∀ l : List α, (l.filterMap f).length = l.countP (fun a => (f a).isSome) := by
  intro l
  induction l with
  | nil => rfl
  | cons a t ih =>
    cases hf : f a with
    | none => simp [List.filterMap_cons, hf, List.countP_cons, ih]
    | some b => simp [List.filterMap_cons, hf, List.countP_cons, ih]

/-- C8: the run is a function of the tree and the client alone, apart from
the timestamp: two runs over the same tree with the same (deterministic)
client and different wall-clock times produce identical card writes, and
their aggregate files differ only in the timestamp inside the header. -/
theorem C8_idempotence (env : Env) (root extsRaw : String) (tree : List Entry) (n1 n2 : String) :
    ((runPipeline env root extsRaw tree n1).writes.filter (fun w => w.1 != "ALL_CARDS.md")) =
      ((runPipeline env root extsRaw tree n2).writes.filter (fun w => w.1 != "ALL_CARDS.md")) ∧
    ∃ body : String,
      cardFileContent (runPipeline env root extsRaw tree n1) "ALL_CARDS.md" =
        some ("# Code-Cards\nGenerated " ++ n1 ++ "\n\n" ++ body) ∧
      cardFileContent (runPipeline env root extsRaw tree n2) "ALL_CARDS.md" =
        some ("# Code-Cards\nGenerated " ++ n2 ++ "\n\n" ++ body) := by
  constructor
  · unfold runPipeline
    simp [List.filter_append]
  · refine ⟨joinWith "\n---\n" (runLoop env root (parseExts extsRaw) tree).cards, ?_, ?_⟩ <;>
    · unfold runPipeline cardFileContent aggContent
      simp [List.filter_append, List.getLast?_concat]

/-- C4: the aggregate's section list is exactly the sections of the selected
files whose processing did not error, in traversal order; its length is the
count of such files.  A failing file is simply absent (the run, a total
function, always completes): it contributes no card write and no section,
and the other files keep their traversal order. -/
theorem C4_section_invariant (env : Env) (root extsRaw : String) (tree : List Entry) (now : String) :
    (runPipeline env root extsRaw tree now).cards =
      (successes env root (parseExts extsRaw) tree).map
        (fun p => sectionFor (relStr p.1.relParts) p.2) ∧
    (runPipeline env root extsRaw tree now).cards.length =
      (tree.filter (selectedB (parseExts extsRaw))).countP
        (fun e => isOkB (processEntry env root e)) ∧
    (runPipeline env root extsRaw tree now).writes =
      (successes env root (parseExts extsRaw) tree).map
        (fun p => (safe_name p.1.relParts, p.2)) ++
      [("ALL_CARDS.md", aggContent now ((runLoop env root (parseExts extsRaw) tree).cards))] := by
  refine ⟨?_, ?_, ?_⟩
  · unfold runPipeline
    rw [runLoop_eq]
  · unfold runPipeline
    rw [runLoop_eq]
    show ((successes env root (parseExts extsRaw) tree).map _).length = _
    rw [List.length_map]
    unfold successes
    rw [length_filterMap_countP]
    apply List.countP_congr
    intro e _
    cases processEntry env root e <;> rfl
  · unfold runPipeline
    rw [runLoop_eq]

/-- C9: cards and sections are produced in lockstep — the card writes and the
aggregate sections of a run are images of the same success list, in the same
order, so every section corresponds to a card file written in the run; and a
file whose completion succeeds but whose card write raises is processed as a
failure, contributing neither. -/
theorem C9_write_then_append (env : Env) (root : String) (exts : List String)
    (tree : List Entry) :
    ((runLoop env root exts tree).writes =
      (successes env root exts tree).map (fun p => (safe_name p.1.relParts, p.2)) ∧
     (runLoop env root exts tree).cards =
      (successes env root exts tree).map (fun p => sectionFor (relStr p.1.relParts) p.2)) ∧
    (∀ (e : Entry) (raw m : String),
      env.complete (promptFor root e) = .ok raw →
      env.writeErr (safe_name e.relParts) = some m →
      processEntry env root e = .error m) := by
  refine ⟨⟨?_, ?_⟩, ?_⟩
  · rw [runLoop_eq]
  · rw [runLoop_eq]
  · intro e raw m hc hw
    unfold processEntry
    rw [hc, hw]

/-- Witness for C9 at a concrete environment whose write raises. -/
theorem C9_write_then_append_witness :
    processEntry ⟨fun _ => .ok "RAW", fun _ => some "disk full"⟩ "/r"
      ⟨["a.py"], true, "x"⟩ = .error "disk full" :=
  (C9_write_then_append ⟨fun _ => .ok "RAW", fun _ => some "disk full"⟩ "/r" [] []).2
    ⟨["a.py"], true, "x"⟩ "RAW" "disk full" rfl rfl

/-- A directory entry or special entry is never selected. -/
theorem selectedB_non_file (exts : List String) (parts : List String) :
    selectedB exts ⟨parts, false, ""⟩ = false := rfl

/-- Filtering the recursive traversal with the line-78 test yields exactly
the regular files, at any depth, whose final suffix is in the allow-set. -/
theorem walkList_filter (exts : List String) :
    ∀ (pre : List String) (cs : List FsNode),
      (walkList pre cs).filter (selectedB exts) = filesList exts pre cs := by
  intro pre cs
  induction pre, cs using walkList.induct with
  | case1 pre => simp only [walkList, filesList, List.filter_nil]
  | case2 pre n t rest ih =>
    simp only [walkList, filesList]
    rw [List.filter_cons]
    have hn : entryName ⟨pre ++ [n], true, t⟩ = n := by
      unfold entryName
      simp [List.getLast?_concat]
    by_cases hc : pysuffix n ∈ exts
    · rw [if_pos (by simp [selectedB, hn, hc]), if_pos (by simpa using hc), ih]
    · rw [if_neg (by simp [selectedB, hn, hc]), if_neg (by simpa using hc), ih]
  | case3 pre n cs rest ih1 ih2 =>
    simp only [walkList, filesList]
    rw [List.filter_cons]
    rw [if_neg (by rw [selectedB_non_file]; simp)]
    rw [List.filter_append, ih1, ih2]
  | case4 pre n rest ih =>
    simp only [walkList, filesList]
    rw [List.filter_cons]
    rw [if_neg (by rw [selectedB_non_file]; simp)]
    rw [ih]

/-- The loop ignores unselected entries: folding over the traversal equals
folding over its selected sublist. -/
theorem runLoop_filter (env : Env) (root : String) (exts : List String) :
    ∀ (tree : List Entry) (st : St),
      tree.foldl (stepEntry env root exts) st =
        (tree.filter (selectedB exts)).foldl (stepEntry env root exts) st := by
  intro tree
  induction tree with
  | nil => intro st; rfl
  | cons e rest ih =>
    intro st
    cases hs : selectedB exts e with
    | true => simp only [List.foldl_cons, List.filter_cons, hs, if_pos]; exact ih _
    | false =>
      have hstep : stepEntry env root exts st e = st := by simp [stepEntry, hs]
      simp only [List.foldl_cons, List.filter_cons, hs, hstep]
      exact ih st

/-- C3: the pipeline processes exactly the regular files under the root whose
final suffix (case-sensitively) belongs to the allow-set, at any nesting
depth; directories and other non-file entries are skipped silently (the loop
over the full traversal equals the loop over its selected files). -/
theorem C3_traversal_filter (exts : List String) (cs : List FsNode) :
    (walkList [] cs).filter (selectedB exts) = filesList exts [] cs ∧
    (∀ (env : Env) (root : String) (tree : List Entry),
      runLoop env root exts tree = runLoop env root exts (tree.filter (selectedB exts))) := by
  constructor
  · exact walkList_filter exts [] cs
  · intro env root tree
    unfold runLoop
    exact runLoop_filter env root exts tree ⟨[], [], []⟩

/-- Witness for C7 at a concrete credential and a concrete failing client. -/
theorem C7_exit_status_witness :
    (runPipeline ⟨fun _ => .error "api down", fun _ => none⟩ "/r" "py"
        [⟨["a.py"], true, "x"⟩] "now").errs =
      failures ⟨fun _ => .error "api down", fun _ => none⟩ "/r" (parseExts "py")
        [⟨["a.py"], true, "x"⟩] :=
  (C7_exit_status (some "KEY") none "" ⟨fun _ => .error "api down", fun _ => none⟩
    "/r" "py" [⟨["a.py"], true, "x"⟩] "now").2 _ rfl

/-- C5 (amended): reading with `errors="ignore"` never raises — the decode is
a total function whose result drops every undecodable subpart — and on fully
valid input it agrees with strict decoding. -/
theorem C5_read_never_raises :
    (∀ bs : List Nat, pyDecode .ignore bs = .ok ((decodeRes bs).filterMap id)) ∧
    (∀ (bs out : List Nat), pyDecode .strict bs = .ok out → pyDecode .ignore bs = .ok out) := by
  constructor
  · intro bs; rfl
  · intro bs out h
    unfold pyDecode at h ⊢
    by_cases hall : (decodeRes bs).all Option.isSome = true
    · rw [if_pos hall] at h
      exact h
    · rw [if_neg hall] at h
      cases h

/-- Witness for C5 at a concrete fully valid input. -/
theorem C5_read_never_raises_witness :
    pyDecode .ignore [104, 105] = .ok [104, 105] :=
  C5_read_never_raises.2 [104, 105] [104, 105] rfl

/-- C5 counterexample: with `errors="ignore"` an undecodable byte leaves no
trace in the resulting text — it is dropped, not replaced by a substitute
character (Python's `errors="replace"`, which is what the claim describes,
would insert U+FFFD). -/
theorem C5_counterexample :
    pyDecode .ignore [97, 255, 98] = .ok [97, 98] ∧
    pyDecodeReplace [97, 255, 98] = [97, 0xFFFD, 98] ∧
    ([97, 98] : List Nat) ≠ [97, 0xFFFD, 98] :=
  ⟨rfl, by decide, by decide⟩

/-- C6 (amended): the prompt sent for a file is the fixed constant template
with exactly two substitutions — the file's ABSOLUTE path (line 82 passes
`file_path`, not `rel`) and the file's text — and nothing else varies per
invocation. -/
theorem C6_prompt_template (root : String) (e : Entry) :
    promptFor root e =
      PROMPT_head ++ absStr root e.relParts ++ PROMPT_mid ++ e.text ++ PROMPT_tail ∧
    (∀ (root2 : String) (e2 : Entry),
      absStr root e.relParts = absStr root2 e2.relParts → e.text = e2.text →
      promptFor root e = promptFor root2 e2) := by
  constructor
  · rfl
  · intro r2 e2 h1 h2
    unfold promptFor prompt_for_file formatPROMPT
    rw [h1, h2]

/-- Witness for C6 at a concrete root and entry. -/
theorem C6_prompt_template_witness :
    promptFor "/r" ⟨["a.py"], true, "x"⟩ =
      PROMPT_head ++ absStr "/r" ["a.py"] ++ PROMPT_mid ++ "x" ++ PROMPT_tail ∧
    promptFor "/r" ⟨["a.py"], true, "x"⟩ = promptFor "/r" ⟨["a.py"], false, "x"⟩ :=
  ⟨(C6_prompt_template "/r" ⟨["a.py"], true, "x"⟩).1,
   (C6_prompt_template "/r" ⟨["a.py"], true, "x"⟩).2 "/r" ⟨["a.py"], false, "x"⟩ rfl rfl⟩

set_option maxRecDepth 100000

/-- C6 counterexample: the substituted path label is the absolute path, not
the relative one: at root `/repo` the prompt sent for `a.py` differs from
the template rendered with the relative path label. -/
theorem C6_counterexample :
    promptFor "/repo" ⟨["a.py"], true, "x"⟩ ≠ prompt_for_file (relStr ["a.py"]) "x" := by
  decide

theorem joinParts_data : ∀ l : List String, (joinParts l).data = charJoin (l.map String.data)
  | [] => rfl
  | [p] => rfl
  | p :: q :: rest => by
    show (p ++ "__" ++ joinParts (q :: rest)).data = _
    rw [String.data_append, String.data_append, joinParts_data (q :: rest),
      List.map_cons, List.map_cons, List.append_assoc]
    rfl

theorem map_data_inj : ∀ (p q : List String), p.map String.data = q.map String.data → p = q
  | [], [], _ => rfl
  | [], _ :: _, h => by simp at h
  | _ :: _, [], h => by simp at h
  | a :: t, b :: u, h => by
    simp only [List.map_cons, List.cons.injEq] at h
    rw [String.ext h.1, map_data_inj t u h.2]

theorem noDouble_tail {a : Char} {l : List Char} (h : noDouble (a :: l) = true) :
    noDouble l = true := by
  cases l with
  | nil => rfl
  | cons b t =>
    have he : noDouble (a :: b :: t) = (!(a == '_' && b == '_') && noDouble (b :: t)) := rfl
    rw [he, Bool.and_eq_true] at h
    exact h.2

theorem noDouble_sep : ∀ (s w : List Char), noDouble (s ++ '_' :: '_' :: w) = false := by
  intro s
  induction s with
  | nil =>
    intro w
    simp [noDouble]
  | cons c s' ih =>
    intro w
    rw [List.cons_append]
    cases hs : s' ++ '_' :: '_' :: w with
    | nil => exact absurd hs (by simp)
    | cons x xs =>
      have he : noDouble (c :: x :: xs) = (!(c == '_' && x == '_') && noDouble (x :: xs)) := rfl
      rw [he, ← hs, ih w, Bool.and_false]

theorem lastNe_tail {c : Char} {l : List Char} (h : (c :: l).getLast? ≠ some '_') :
    l.getLast? ≠ some '_' := by
  cases l with
  | nil => simp
  | cons x xs =>
    rw [List.getLast?_cons_cons] at h
    exact h

theorem sep_prefix_eq :
    ∀ (a b u v : List Char),
      noDouble a = true → noDouble b = true →
      a.getLast? ≠ some '_' → b.getLast? ≠ some '_' →
      u.head? ≠ some '_' → v.head? ≠ some '_' →
      a ++ '_' :: '_' :: u = b ++ '_' :: '_' :: v →
      a = b ∧ u = v := by
  intro a
  induction a with
  | nil =>
    intro b u v _ hb _ hbl _ _ heq
    cases b with
    | nil =>
      refine ⟨rfl, ?_⟩
      simpa using heq
    | cons c b' =>
      rw [List.nil_append, List.cons_append] at heq
      injection heq with h1 h2
      subst h1
      cases b' with
      | nil =>
        exfalso
        apply hbl
        simp
      | cons d b'' =>
        rw [List.cons_append] at h2
        injection h2 with h3 h4
        subst h3
        simp [noDouble] at hb
  | cons c a' ih =>
    intro b u v ha hb hal hbl hu hv heq
    cases b with
    | nil =>
      rw [List.cons_append, List.nil_append] at heq
      injection heq with h1 h2
      subst h1
      cases a' with
      | nil =>
        exfalso
        apply hal
        simp
      | cons d a'' =>
        rw [List.cons_append] at h2
        injection h2 with h3 h4
        subst h3
        simp [noDouble] at ha
    | cons d b' =>
      rw [List.cons_append, List.cons_append] at heq
      injection heq with h1 h2
      subst h1
      obtain ⟨hab, huv⟩ := ih b' u v (noDouble_tail ha) (noDouble_tail hb)
        (lastNe_tail hal) (lastNe_tail hbl) hu hv h2
      exact ⟨by rw [hab], huv⟩

theorem charJoin_head (s : List Char) (rest : List (List Char)) (hs : s ≠ []) :
    (charJoin (s :: rest)).head? = s.head? := by
  cases rest with
  | nil => rfl
  | cons t ts =>
    show (s ++ '_' :: '_' :: charJoin (t :: ts)).head? = s.head?
    cases s with
    | nil => exact absurd rfl hs
    | cons c s' => rfl

theorem charJoin_inj :
    ∀ (as bs : List (List Char)),
      (∀ s ∈ as, goodSeg s) → (∀ s ∈ bs, goodSeg s) →
      as ≠ [] → bs ≠ [] →
      charJoin as = charJoin bs → as = bs := by
  intro as
  induction as with
  | nil => intro bs _ _ h0 _ _; exact absurd rfl h0
  | cons a as' ih =>
    intro bs ha hb _ hb0 heq
    cases bs with
    | nil => exact absurd rfl hb0
    | cons b bs' =>
      cases as' with
      | nil =>
        cases bs' with
        | nil =>
          rw [show charJoin [a] = a from rfl, show charJoin [b] = b from rfl] at heq
          rw [heq]
        | cons b2 bt =>
          exfalso
          have hnd := (ha a (List.mem_cons_self a _)).2.1
          rw [show charJoin [a] = a from rfl,
              show charJoin (b :: b2 :: bt) = b ++ '_' :: '_' :: charJoin (b2 :: bt) from rfl] at heq
          rw [heq, noDouble_sep] at hnd
          cases hnd
      | cons a2 at' =>
        cases bs' with
        | nil =>
          exfalso
          have hnd := (hb b (List.mem_cons_self b _)).2.1
          rw [show charJoin (a :: a2 :: at') = a ++ '_' :: '_' :: charJoin (a2 :: at') from rfl,
              show charJoin [b] = b from rfl] at heq
          rw [← heq, noDouble_sep] at hnd
          cases hnd
        | cons b2 bt =>
          rw [show charJoin (a :: a2 :: at') = a ++ '_' :: '_' :: charJoin (a2 :: at') from rfl,
              show charJoin (b :: b2 :: bt) = b ++ '_' :: '_' :: charJoin (b2 :: bt) from rfl] at heq
          have hga := ha a (List.mem_cons_self a _)
          have hgb := hb b (List.mem_cons_self b _)
          have hga2 := ha a2 (by simp)
          have hgb2 := hb b2 (by simp)
          have hu : (charJoin (a2 :: at')).head? ≠ some '_' := by
            rw [charJoin_head a2 at' hga2.1]
            exact hga2.2.2.1
          have hv : (charJoin (b2 :: bt)).head? ≠ some '_' := by
            rw [charJoin_head b2 bt hgb2.1]
            exact hgb2.2.2.1
          obtain ⟨hab, hrest⟩ := sep_prefix_eq a b _ _ hga.2.1 hgb.2.1 hga.2.2.2 hgb.2.2.2 hu hv heq
          have hEq2 := ih (b2 :: bt) (fun s hs => ha s (List.mem_cons_of_mem a hs))
            (fun s hs => hb s (List.mem_cons_of_mem b hs)) (by simp) (by simp) hrest
          rw [hab, hEq2]

theorem segSafe_conds {p : List String} (hp : ∀ s ∈ p, s ≠ "" ∧ segSafe s = true) :
    ∀ s ∈ p.map String.data, goodSeg s := by
  intro s hs
  rcases List.mem_map.mp hs with ⟨x, hx, rfl⟩
  obtain ⟨hne, hsafe⟩ := hp x hx
  unfold segSafe at hsafe
  simp only [Bool.and_eq_true, bne_iff_ne, ne_eq] at hsafe
  refine ⟨?_, hsafe.1.1, hsafe.1.2, hsafe.2⟩
  intro h0
  exact hne (String.ext (by simpa using h0))

/-- C1 (amended): derived card filenames are injective over relative paths
whose segments are nonempty, avoid the `__` separator token AND neither
start nor end with a single underscore.  (The claim's own hypothesis — only
that no segment contains `__` — is not enough; see the counterexample.) -/
theorem C1_unique_names (p q : List String)
    (hp0 : p ≠ []) (hq0 : q ≠ [])
    (hp : ∀ s ∈ p, s ≠ "" ∧ segSafe s = true)
    (hq : ∀ s ∈ q, s ≠ "" ∧ segSafe s = true)
    (hne : p ≠ q) : safe_name p ≠ safe_name q := by
  intro h
  apply hne
  have hd : (joinParts p).data ++ (".md" : String).data =
      (joinParts q).data ++ (".md" : String).data := by
    have hc := congrArg String.data h
    unfold safe_name at hc
    rw [String.data_append, String.data_append] at hc
    exact hc
  have hj : (joinParts p).data = (joinParts q).data := List.append_cancel_right hd
  rw [joinParts_data, joinParts_data] at hj
  have hmap := charJoin_inj (p.map String.data) (q.map String.data)
    (segSafe_conds hp) (segSafe_conds hq) (by simpa using hp0) (by simpa using hq0) hj
  exact map_data_inj p q hmap

/-- Witness for C1 at two concrete distinct safe paths. -/
theorem C1_unique_names_witness :
    safe_name ["a", "b.py"] ≠ safe_name ["ab.py"] :=
  C1_unique_names ["a", "b.py"] ["ab.py"] (by decide) (by decide) (by decide) (by decide)
    (by decide)

/-- C1 counterexample: the claim's hypothesis (no segment contains the
separator token `__`) does not make the derived names distinct: the two
distinct relative paths `a_/b.py` and `a/_b.py` satisfy it yet share the
derived name `a___b.py.md`. -/
theorem C1_counterexample :
    (["a_", "b.py"] : List String) ≠ ["a", "_b.py"] ∧
    (∀ s ∈ (["a_", "b.py"] : List String), s ≠ "" ∧ noDouble s.data = true) ∧
    (∀ s ∈ (["a", "_b.py"] : List String), s ≠ "" ∧ noDouble s.data = true) ∧
    safe_name ["a_", "b.py"] = safe_name ["a", "_b.py"] := by decide

theorem successes_eq_filterMap (env : Env) (root : String) (exts : List String)
    (tree : List Entry) :
    successes env root exts tree =
      (tree.filter (selectedB exts)).filterMap (succOf env root) := rfl

theorem succOf_fst {env : Env} {root : String} {x : Entry} {pc : Entry × String}
    (hx : succOf env root x = some pc) : pc.1 = x := by
  unfold succOf at hx
  cases hpe : processEntry env root x with
  | ok c => rw [hpe] at hx; cases hx; rfl
  | error m => rw [hpe] at hx; cases hx

theorem succOf_mem {env : Env} {root : String} :
    ∀ {L : List Entry} {p : Entry × String},
      p ∈ L.filterMap (succOf env root) → p.1 ∈ L := by
  intro L p hp
  rcases List.mem_filterMap.mp hp with ⟨a, haL, hg⟩
  rw [show p.1 = a from by rw [succOf_fst hg]] at *
  exact haL

theorem joinParts_getLast : ∀ (parts : List String), parts ≠ [] →
    ∃ pre : List Char, (joinParts parts).data = pre ++ ((parts.getLast?).getD "").data
  | [], h => absurd rfl h
  | [p], _ => ⟨[], by simp [joinParts]⟩
  | p :: q :: rest, _ => by
    obtain ⟨pre, hpre⟩ := joinParts_getLast (q :: rest) (by simp)
    refine ⟨(p.data ++ ("__" : String).data) ++ pre, ?_⟩
    show ((p ++ "__") ++ joinParts (q :: rest)).data = _
    rw [String.data_append, String.data_append, hpre, List.getLast?_cons_cons]
    simp [List.append_assoc]

/-- A selected file's derived card name is never the aggregate's name
`ALL_CARDS.md`: that would force the joined parts to read `ALL_CARDS`, a
dot-free final segment, whose suffix (empty) cannot be in the allow-set. -/
theorem safe_name_ne_all {extsRaw : String} {e : Entry}
    (hsel : selectedB (parseExts extsRaw) e = true) :
    safe_name e.relParts ≠ "ALL_CARDS.md" := by
  intro h
  have hmem : pysuffix (entryName e) ∈ parseExts extsRaw := by
    unfold selectedB at hsel
    rw [Bool.and_eq_true] at hsel
    simpa using hsel.2
  have hhead := parseExts_head hmem
  have hAC : ("ALL_CARDS.md" : String) = "ALL_CARDS" ++ ".md" := by decide
  have hj : (joinParts e.relParts).data = ("ALL_CARDS" : String).data := by
    have hc := congrArg String.data h
    unfold safe_name at hc
    rw [hAC, String.data_append, String.data_append] at hc
    exact List.append_cancel_right hc
  by_cases hnil : e.relParts = []
  · have hen : entryName e = "" := by rw [entryName, hnil]; rfl
    rw [hen] at hhead
    exact absurd hhead (by decide)
  · obtain ⟨pre, hpre⟩ := joinParts_getLast e.relParts hnil
    have hsub : pre ++ ((e.relParts.getLast?).getD "").data = ("ALL_CARDS" : String).data := by
      rw [← hpre, hj]
    have hdot : '.' ∉ ((e.relParts.getLast?).getD "").data := by
      intro hd
      have hin : ('.' : Char) ∈ ("ALL_CARDS" : String).data := by
        rw [← hsub]
        exact List.mem_append_right _ hd
      exact absurd hin (by decide)
    have hen : entryName e = (e.relParts.getLast?).getD "" := rfl
    rw [hen, pysuffix_of_no_dot hdot] at hhead
    exact absurd hhead (by decide)

/-- In a run whose selected files have pairwise distinct derived names, the
only success whose derived name matches a given successful entry's is that
entry itself. -/
theorem filterMap_filter_key (env : Env) (root : String) :
    ∀ (L : List Entry) (e : Entry) (c : String),
      (L.map (fun x => safe_name x.relParts)).Nodup →
      e ∈ L → succOf env root e = some (e, c) →
      ((L.filterMap (succOf env root)).filter
        (fun p => safe_name p.1.relParts == safe_name e.relParts)) = [(e, c)] := by
  intro L
  induction L with
  | nil => intro e c _ he _; cases he
  | cons x L' ih =>
    intro e c hnd he hsucc
    rw [List.map_cons, List.nodup_cons] at hnd
    obtain ⟨hx_not, hnd'⟩ := hnd
    rw [List.filterMap_cons]
    rcases List.mem_cons.mp he with rfl | heL'
    · rw [hsucc]
      rw [List.filter_cons, if_pos (by simp)]
      have hrest : ∀ p ∈ L'.filterMap (succOf env root),
          ¬((fun p => safe_name p.1.relParts == safe_name e.relParts) p = true) := by
        intro p hp hbeq
        have hmem := succOf_mem hp
        have hmap : safe_name p.1.relParts ∈ L'.map (fun x => safe_name x.relParts) :=
          List.mem_map.mpr ⟨p.1, hmem, rfl⟩
        rw [show safe_name p.1.relParts = safe_name e.relParts from by simpa using hbeq] at hmap
        exact hx_not hmap
      rw [List.filter_eq_nil_iff.mpr hrest]
    · have hxkey : safe_name x.relParts ≠ safe_name e.relParts := by
        intro hEq
        apply hx_not
        rw [hEq]
        exact List.mem_map.mpr ⟨e, heL', rfl⟩
      cases hx : succOf env root x with
      | none => exact ih e c hnd' heL' hsucc
      | some pc =>
        rw [List.filter_cons, if_neg (by rw [succOf_fst hx]; simp [hxkey])]
        exact ih e c hnd' heL' hsucc

/-- C2 (amended): when the selected files' derived names are pairwise
distinct, every successfully processed file with relative path P ends the
run with a card file named `"__".join(P) + ".md"` whose content is exactly
the client's returned text stripped of surrounding whitespace.  (Without the
distinctness proviso a later colliding file overwrites the card — see the
counterexample.) -/
theorem C2_card_content (env : Env) (root extsRaw : String) (tree : List Entry) (now : String)
    (e : Entry) (raw : String)
    (he : e ∈ tree) (hsel : selectedB (parseExts extsRaw) e = true)
    (hraw : env.complete (promptFor root e) = .ok raw)
    (hw : env.writeErr (safe_name e.relParts) = none)
    (hnodup : ((tree.filter (selectedB (parseExts extsRaw))).map
      (fun x => safe_name x.relParts)).Nodup) :
    cardFileContent (runPipeline env root extsRaw tree now) (safe_name e.relParts) =
      some (pystrip raw) := by
  have hok : processEntry env root e = .ok (pystrip raw) := by
    unfold processEntry
    rw [hraw, hw]
  have hsucc : succOf env root e = some (e, pystrip raw) := by
    unfold succOf
    rw [hok]
  have heL : e ∈ tree.filter (selectedB (parseExts extsRaw)) :=
    List.mem_filter.mpr ⟨he, hsel⟩
  have hALfalse : (("ALL_CARDS.md" : String) == safe_name e.relParts) = false := by
    rw [beq_eq_false_iff_ne]
    exact fun hEq => safe_name_ne_all hsel hEq.symm
  unfold cardFileContent runPipeline
  rw [runLoop_eq]
  show ((((successes env root (parseExts extsRaw) tree).map
      (fun p => (safe_name p.1.relParts, p.2)) ++
      [("ALL_CARDS.md", aggContent now _)]).filter
        (fun w => w.1 == safe_name e.relParts)).getLast?).map Prod.snd = some (pystrip raw)
  rw [List.filter_append]
  have hfilAll : ∀ y : String,
      List.filter (fun w => w.1 == safe_name e.relParts) [(("ALL_CARDS.md" : String), y)] = [] := by
    intro y
    simp [hALfalse]
  rw [hfilAll, List.append_nil, List.filter_map, successes_eq_filterMap]
  rw [show ((fun w : String × String => w.1 == safe_name e.relParts) ∘
      (fun p : Entry × String => (safe_name p.1.relParts, p.2))) =
      (fun p : Entry × String => safe_name p.1.relParts == safe_name e.relParts) from rfl]
  rw [filterMap_filter_key env root _ e (pystrip raw) hnodup heL hsucc]
  rfl

/-- Witness for C2 at a concrete one-file run. -/
theorem C2_card_content_witness :
    cardFileContent
      (runPipeline ⟨fun _ => .ok " CARD ", fun _ => none⟩ "/r" "py"
        [⟨["a.py"], true, "x"⟩] "now") (safe_name ["a.py"]) = some (pystrip " CARD ") :=
  C2_card_content ⟨fun _ => .ok " CARD ", fun _ => none⟩ "/r" "py"
    [⟨["a.py"], true, "x"⟩] "now" ⟨["a.py"], true, "x"⟩ " CARD "
    (by decide) (by decide) rfl rfl (by decide)

/-- C2 counterexample: without the distinctness proviso the claim fails — in
a run over `a_/b.py` and `a/_b.py` the first file is successfully processed
(the client returns `CARD-ONE` for it), yet at the end of the run its card
file `a___b.py.md` holds `CARD-TWO`, the card of the second, colliding file,
not its own trimmed completion text. -/
theorem C2_counterexample :
    ((⟨["a_", "b.py"], true, "t"⟩ : Entry) ∈
      ([⟨["a_", "b.py"], true, "t"⟩, ⟨["a", "_b.py"], true, "tt"⟩] : List Entry)) ∧
    selectedB (parseExts "py") ⟨["a_", "b.py"], true, "t"⟩ = true ∧
    (Env.mk (fun p => .ok (if p = prompt_for_file "/r/a_/b.py" "t" then "CARD-ONE" else "CARD-TWO"))
        (fun _ => none)).complete
      (promptFor "/r" ⟨["a_", "b.py"], true, "t"⟩) = .ok "CARD-ONE" ∧
    cardFileContent
      (runPipeline
        ⟨fun p => .ok (if p = prompt_for_file "/r/a_/b.py" "t" then "CARD-ONE" else "CARD-TWO"),
         fun _ => none⟩
        "/r" "py" [⟨["a_", "b.py"], true, "t"⟩, ⟨["a", "_b.py"], true, "tt"⟩] "now")
      (safe_name ["a_", "b.py"]) = some "CARD-TWO" ∧
    ("CARD-TWO" : String) ≠ pystrip "CARD-ONE" :=
  ⟨by decide, by decide, rfl, by decide, by decide⟩

end Cards
